import Mathlib

/-!
Verification of the uber-eats-tracker scrape-and-normalize pipeline.

Shallow embedding of the scraper sources:
  * `apps/scraper/src/parser.ts`  — text normalization, price parsing,
    `splitOrderedAtText`, `buildScrapedOrder`;
  * `apps/scraper/src/index.ts`   — table expansion driver, row extraction
    engine, debug-log toggle;
  * `apps/api/src/db.ts`          — `insertOrders` (dedup by signature) and the
    private copy of `splitOrderedAtText`.

Modelling conventions: JS strings are `String` (lists of chars), DOM/row state
is passed explicitly, and the currency amount is kept in exact cents (`Nat`).
Every price flowing through the pipeline comes from the capture group of
`/\$\s*([\d,]+(?:\.\d{1,2})?)/`, so it is an exact non-negative multiple of a
cent and the JS float holding it prints in the canonical `u` / `u.d` / `u.dd`
decimal form that `renderPrice` below reproduces.
-/

set_option maxRecDepth 16384

/-- The JS `\s` character class (whitespace), as used by
`value.replace(/\s+/g, ' ')`, `.trim()` and the `\s*` in the price pattern. -/
def isSpace (c : Char) : Bool :=
  c == ' ' || (decide (9 ≤ c.toNat) && decide (c.toNat ≤ 13)) ||
  c.toNat == 0xA0 || c.toNat == 0x1680 ||
  (decide (0x2000 ≤ c.toNat) && decide (c.toNat ≤ 0x200A)) ||
  c.toNat == 0x2028 || c.toNat == 0x2029 ||
  c.toNat == 0x202F || c.toNat == 0x205F ||
  c.toNat == 0x3000 || c.toNat == 0xFEFF

/-- One pass of `value.replace(/\s+/g, ' ')`: every maximal whitespace run
becomes a single `' '`.  The flag records whether the previous character was
part of a whitespace run already replaced. -/
def collapseAux : Bool → List Char → List Char
  | _, [] => []
  | prevWs, c :: rest =>
    if isSpace c then
      if prevWs then collapseAux true rest
      else ' ' :: collapseAux true rest
    else c :: collapseAux false rest

/-- `value.replace(/\s+/g, ' ')`. -/
def collapseWs (l : List Char) : List Char := collapseAux false l

/-- Remove the trailing whitespace run (the right half of `String.trim()`). -/
def dropEndWs : List Char → List Char
  | [] => []
  | c :: rest =>
    match dropEndWs rest with
    | [] => if isSpace c then [] else [c]
    | r => c :: r

/-- JS `String.prototype.trim()` on char lists. -/
def trimWs (l : List Char) : List Char := dropEndWs (l.dropWhile isSpace)

/-- `normalizeText` from `parser.ts`:
`value.replace(/\s+/g, ' ').trim()`. -/
def normalizeText (value : String) : String := ⟨trimWs (collapseWs value.data)⟩

/-- JS `String.prototype.trim()` on strings (used by `splitOrderedAtText`). -/
def jsTrim (s : String) : String := ⟨trimWs s.data⟩

/-- Numeric value of a digit string, most significant first
(`Number` on an all-digit string; empty list gives `0` as `Number('')` does). -/
def natOfDigits (l : List Char) : ℕ :=
  l.foldl (fun a c => 10 * a + (c.toNat - 48)) 0

/-- Decimal digits of `n`, fuelled so that the kernel can evaluate it. -/
def toDecAux : ℕ → ℕ → List Char → List Char
  | 0, _, acc => acc
  | fuel + 1, n, acc =>
    if n < 10 then Nat.digitChar n :: acc
    else toDecAux fuel (n / 10) (Nat.digitChar (n % 10) :: acc)

/-- Decimal digit list of `n` (JS `ToString` of a non-negative integer). -/
def toDecList (n : ℕ) : List Char := toDecAux (n + 1) n []

/-- Decimal rendering of a natural number. -/
def toDec (n : ℕ) : String := ⟨toDecList n⟩

/-- Fractional part of the JS rendering of `r` cents (`0 < r < 100`):
`.5` for 50, `.05` for 5, `.99` for 99 — trailing zeros dropped, leading zero
kept, exactly as a float with two decimals prints. -/
def fracRender (r : ℕ) : String :=
  if r % 10 = 0 then toDec (r / 10)
  else if r < 10 then "0" ++ toDec r
  else toDec r

/-- JS rendering `${totalPrice}` of a price of `cents` cents: the shortest
decimal form (`24.99`, `1234.5`, `0`, `0.05`, ...). -/
def renderPrice (cents : ℕ) : String :=
  if cents % 100 = 0 then toDec (cents / 100)
  else toDec (cents / 100) ++ "." ++ fracRender (cents % 100)

/-- The `[\d,]` character class of the price pattern. -/
def isDigitComma (c : Char) : Bool := c.isDigit || c == ','

/-- The optional `(?:\.\d{1,2})?` tail of the price capture group, applied to
the text right after the maximal `[\d,]+` run: a dot followed by one or two
digits (greedy), or nothing. -/
def fracPart (l : List Char) : List Char :=
  match l with
  | c :: d1 :: rest =>
    if c = '.' && d1.isDigit then
      match rest with
      | d2 :: _ => if d2.isDigit then [c, d1, d2] else [c, d1]
      | [] => [c, d1]
    else []
  | _ => []

/-- Attempt of `/\$\s*([\d,]+(?:\.\d{1,2})?)/` at the text right after a `'$'`:
skip whitespace (`\s*` — greedy, and no backtracking can help because `\s` and
`[\d,]` are disjoint), then require at least one `[\d,]` character; the capture
group is the maximal `[\d,]+` run plus the optional fraction tail. -/
def tryAfterDollar (l : List Char) : Option (List Char) :=
  let afterWs := l.dropWhile isSpace
  let g1 := afterWs.takeWhile isDigitComma
  if g1.isEmpty then none
  else some (g1 ++ fracPart (afterWs.dropWhile isDigitComma))

/-- `fullText.match(pricePattern)`: leftmost match of
`/\$\s*([\d,]+(?:\.\d{1,2})?)/`, returning the capture group. -/
def findPriceMatch : List Char → Option (List Char)
  | [] => none
  | c :: rest =>
    if c = '$' then
      match tryAfterDollar rest with
      | some g => some g
      | none => findPriceMatch rest
    else findPriceMatch rest

/-- `match[1].replace(/,/g, '')`. -/
def stripCommas (l : List Char) : List Char := l.filter (fun c => c != ',')

/-- Cents contributed by the (at most two) digits after the decimal point. -/
def centsOfFrac : List Char → ℕ
  | [] => 0
  | [d] => 10 * (d.toNat - 48)
  | d1 :: d2 :: _ => 10 * (d1.toNat - 48) + (d2.toNat - 48)

/-- JS `Number(...)` on the comma-stripped capture group, scaled to cents;
`none` models `NaN`.  Faithful to JS decimal literals on the strings this
pipeline can produce: optional integer digits, optionally a dot and fraction
digits, at least one digit overall or the empty string (`Number('') === 0`);
the cents scale restricts the fraction to the two digits the capture group can
carry. -/
def jsNumberCents (s : List Char) : Option ℕ :=
  let ds := s.takeWhile Char.isDigit
  match s.dropWhile Char.isDigit with
  | [] => some (natOfDigits ds * 100)
  | '.' :: frac =>
    if frac.all Char.isDigit && (!ds.isEmpty || !frac.isEmpty) &&
        decide (frac.length ≤ 2) then
      some (natOfDigits ds * 100 + centsOfFrac frac)
    else none
  | _ => none

/-- `parsePriceFromText` from `parser.ts`: match the price pattern, strip
commas from the capture group, convert with `Number`, and return `null`
(`none`) when the pattern is absent or the conversion is `NaN`.  The result is
in cents. -/
def parsePriceFromText (fullText : String) : Option ℕ :=
  match findPriceMatch fullText.data with
  | none => none
  | some g => jsNumberCents (stripCommas g)

/-- JS `orderedAtText.split(',')` on char lists: segments between commas, in
order, keeping empty segments (`''.split(',') === ['']`). -/
def splitOnComma : List Char → List (List Char)
  | [] => [[]]
  | c :: rest =>
    if c = ',' then [] :: splitOnComma rest
    else
      match splitOnComma rest with
      | [] => [[c]]
      | seg :: segs => (c :: seg) :: segs

/-- JS `String.prototype.split(',')`. -/
def splitCommaStr (s : String) : List String :=
  (splitOnComma s.data).map (fun l => ⟨l⟩)

/-- Result shape of `splitOrderedAtText`. -/
structure OrderedAtParts where
  orderedDate : String
  orderedTime : String
deriving DecidableEq, Repr

/-- `splitOrderedAtText` from `parser.ts`: split on commas, trim each segment,
drop the empty ones; with at least three segments the first two (joined by
`", "`) form the date and the rest the time, otherwise the original text is
the date and the time is empty. -/
def splitOrderedAtText (orderedAtText : String) : OrderedAtParts :=
  let segments :=
    ((splitCommaStr orderedAtText).map jsTrim).filter (fun s => s.length != 0)
  if 3 ≤ segments.length then
    { orderedDate := segments.getD 0 "" ++ ", " ++ segments.getD 1 ""
      orderedTime := String.intercalate ", " (segments.drop 2) }
  else
    { orderedDate := orderedAtText, orderedTime := "" }

namespace Db

/-- The private copy of `splitOrderedAtText` in `apps/api/src/db.ts`
(same algorithm, embedded from that file's own text). -/
def splitOrderedAtText (orderedAtText : String) : OrderedAtParts :=
  let segments :=
    ((splitCommaStr orderedAtText).map jsTrim).filter (fun s => s.length != 0)
  if 3 ≤ segments.length then
    { orderedDate := segments.getD 0 "" ++ ", " ++ segments.getD 1 ""
      orderedTime := String.intercalate ", " (segments.drop 2) }
  else
    { orderedDate := orderedAtText, orderedTime := "" }

end Db

/-- `ScrapedOrder` from `parser.ts`; `totalPrice` is kept in exact cents. -/
structure ScrapedOrder where
  restaurantName : String
  totalPrice : ℕ
  orderedAtText : String
  sourceSignature : String
deriving DecidableEq, Repr

/-- `buildScrapedOrder` from `parser.ts`: the signature is the template string
`` `${restaurantName}__${orderedAtText}__${totalPrice}` ``. -/
def buildScrapedOrder (restaurantName : String) (totalPrice : ℕ)
    (orderedAtText : String) : ScrapedOrder :=
  { restaurantName := restaurantName
    totalPrice := totalPrice
    orderedAtText := orderedAtText
    sourceSignature :=
      restaurantName ++ "__" ++ orderedAtText ++ "__" ++ renderPrice totalPrice }

/-- One `<tr>` of the stabilized table: the text contents of its `<td>` cells
and the optional text of the nested `span > span` container inside cell 1
(`none` models an absent container; the code reads its `textContent() ?? ''`).
-/
structure TableRow where
  cells : List String
  nameSpanText : Option String
deriving DecidableEq, Repr

/-- The restaurant-name computation of `extractOrdersFromTable`:
`normalizeText(spanText ?? '') || normalizeText(cell1Text ?? '')`. -/
def restaurantNameOfRow (row : TableRow) : String :=
  let fromSpan := normalizeText (row.nameSpanText.getD "")
  if fromSpan = "" then normalizeText (row.cells.getD 1 "") else fromSpan

/-- `extractOrdersFromTable` from `index.ts`, on the abstract table: rows with
fewer than 5 cells are skipped; otherwise the normalized cell texts are read
and the row is skipped when the timestamp or restaurant name is empty or the
price fails to parse; valid rows yield `buildScrapedOrder` in row order. -/
def extractOrdersFromTable : List TableRow → List ScrapedOrder
  | [] => []
  | row :: rest =>
    if row.cells.length < 5 then extractOrdersFromTable rest
    else
      let orderedAtText := normalizeText (row.cells.getD 0 "")
      let restaurantName := restaurantNameOfRow row
      let totalPrice := parsePriceFromText (normalizeText (row.cells.getD 4 ""))
      if orderedAtText = "" ∨ restaurantName = "" ∨ totalPrice = none then
        extractOrdersFromTable rest
      else
        buildScrapedOrder restaurantName (totalPrice.getD 0) orderedAtText ::
          extractOrdersFromTable rest

/-- The per-row validator stated by the spec: `none` exactly on the four
rejection conditions, otherwise the `ScrapedOrder` built from the extracted
values. -/
def rowToOrder (row : TableRow) : Option ScrapedOrder :=
  if row.cells.length < 5 ∨ normalizeText (row.cells.getD 0 "") = "" ∨
      restaurantNameOfRow row = "" ∨
      parsePriceFromText (normalizeText (row.cells.getD 4 "")) = none then
    none
  else
    some (buildScrapedOrder (restaurantNameOfRow row)
      ((parsePriceFromText (normalizeText (row.cells.getD 4 ""))).getD 0)
      (normalizeText (row.cells.getD 0 "")))

/-- The expansion loop of `expandOrdersTable` from `index.ts`, abstracted over
the row-count reads: `r 0` is the count read before the loop and `r i` the
count read in iteration `i`.  State is `(iteration, previousCount,
stablePasses)`; growth resets `stablePasses`, three consecutive non-growth
polls end the loop, and the `for` bound caps it at 240 iterations.  Returns
the index of the last iteration performed. -/
def expandAux (r : ℕ → ℕ) : ℕ → ℕ → ℕ → ℕ → ℕ
  | 0, iteration, _, _ => iteration - 1
  | fuel + 1, iteration, prev, stable =>
    let next := r iteration
    if prev < next then expandAux r fuel (iteration + 1) next 0
    else if 2 ≤ stable then iteration
    else expandAux r fuel (iteration + 1) prev (stable + 1)

/-- Number of polling iterations `expandOrdersTable` performs against the row
source `r`. -/
def expandIterations (r : ℕ → ℕ) : ℕ := expandAux r 240 1 (r 0) 0

/-- `debugScraper` from `index.ts` as a function of the `DEBUG_SCRAPER`
environment variable: `(process.env.DEBUG_SCRAPER ?? '1') !== '0'`. -/
def debugScraperOf (env : Option String) : Bool := !(env.getD "1" == "0")

/-- Lines emitted by one `debugLog(message)` call under toggle `dbg`. -/
def debugLogLines (dbg : Bool) (message : String) : List String :=
  if dbg then ["[scraper:debug] " ++ message] else []

/-- `extractOrdersFromTable` together with the debug lines it emits (row skips
are logged behind the toggle; rows with fewer than 5 cells are skipped
silently, as in the code). -/
def extractRowsLogged (dbg : Bool) : ℕ → List TableRow →
    List ScrapedOrder × List String
  | _, [] => ([], [])
  | index, row :: rest =>
    if row.cells.length < 5 then extractRowsLogged dbg (index + 1) rest
    else
      let orderedAtText := normalizeText (row.cells.getD 0 "")
      let restaurantName := restaurantNameOfRow row
      let totalPrice := parsePriceFromText (normalizeText (row.cells.getD 4 ""))
      if orderedAtText = "" ∨ restaurantName = "" ∨ totalPrice = none then
        let tail := extractRowsLogged dbg (index + 1) rest
        (tail.1,
          debugLogLines dbg ("extract: skipped row " ++ toDec (index + 1)) ++
            tail.2)
      else
        let tail := extractRowsLogged dbg (index + 1) rest
        (buildScrapedOrder restaurantName (totalPrice.getD 0) orderedAtText ::
            tail.1, tail.2)

/-- One persisted row of the `orders` table (`db.ts`): the generated `id` and
`created_at` are external storage concerns and are left out; `sourceSignature`
carries the `UNIQUE` constraint. -/
structure OrderRow where
  restaurantName : String
  itemCount : ℕ
  totalPrice : ℕ
  orderedDate : String
  orderedTime : String
  orderedAtText : String
  sourceSignature : String
deriving DecidableEq, Repr

/-- The row `insertOrders` binds for one order (`item_count` fixed to 1, the
timestamp split by the db copy of `splitOrderedAtText`). -/
def toOrderRow (o : ScrapedOrder) : OrderRow :=
  let parts := Db.splitOrderedAtText o.orderedAtText
  { restaurantName := o.restaurantName
    itemCount := 1
    totalPrice := o.totalPrice
    orderedDate := parts.orderedDate
    orderedTime := parts.orderedTime
    orderedAtText := o.orderedAtText
    sourceSignature := o.sourceSignature }

/-- The `UNIQUE` lookup on `source_signature`. -/
def hasSignature (db : List OrderRow) (sig : String) : Bool :=
  db.any (fun row => row.sourceSignature == sig)

/-- `insertOrders` from `db.ts` over an explicit store: each order is inserted
in turn; a `UNIQUE constraint failed` on `source_signature` is caught and
counted as skipped (inserts earlier in the same batch are visible to later
ones, as inside the SQL transaction).  Returns the new store and the
`{inserted, skipped}` counts. -/
def insertStep (st : List OrderRow × ℕ × ℕ) (o : ScrapedOrder) :
    List OrderRow × ℕ × ℕ :=
  if hasSignature st.1 o.sourceSignature then (st.1, st.2.1, st.2.2 + 1)
  else (st.1 ++ [toOrderRow o], st.2.1 + 1, st.2.2)

def insertOrders (db : List OrderRow) (orders : List ScrapedOrder) :
    List OrderRow × ℕ × ℕ :=
  orders.foldl insertStep (db, 0, 0)


/-- The head, if any, is not whitespace. -/
def notSpaceHead : List Char → Bool
  | [] => true
  | c :: _ => !(isSpace c)

/-- Normal-form invariant of collapsed text: every whitespace character is the
plain space and is never followed by another whitespace character. -/
def flat : List Char → Bool
  | [] => true
  | c :: rest =>
    (!(isSpace c) || c == ' ') && (!(isSpace c) || notSpaceHead rest) &&
      flat rest

/-- The last character, if any, is not whitespace. -/
def lastNotSpace (l : List Char) : Bool :=
  match l.getLast? with
  | none => true
  | some c => !(isSpace c)

/-- The field contains no underscore character (the delimiter of the
signature template is `"__"`). -/
def underscoreFree (s : String) : Bool := s.data.all (fun c => c != '_')

/-- C2: `buildScrapedOrder` copies its three inputs into the record fields and
derives `sourceSignature` as `restaurantName ++ "__" ++ orderedAtText ++ "__"`
followed by the decimal rendering of `totalPrice`; on the inputs `"Example"`,
24.99 (2499 cents) and `"Feb 22, 2026, 10:09:13 AM"` the signature is
`"Example__Feb 22, 2026, 10:09:13 AM__24.99"`. -/
theorem buildScrapedOrder_spec :
    (∀ (name : String) (price : ℕ) (time : String),
      (buildScrapedOrder name price time).restaurantName = name ∧
      (buildScrapedOrder name price time).totalPrice = price ∧
      (buildScrapedOrder name price time).orderedAtText = time ∧
      (buildScrapedOrder name price time).sourceSignature =
        name ++ "__" ++ time ++ "__" ++ renderPrice price) ∧
    (buildScrapedOrder "Example" 2499 "Feb 22, 2026, 10:09:13 AM").sourceSignature
      = "Example__Feb 22, 2026, 10:09:13 AM__24.99" :=
  ⟨fun _ _ _ => ⟨rfl, rfl, rfl, rfl⟩, by decide⟩

/-- C10: the exported `splitOrderedAtText` of the scraper's parser module and
the private copy in the API's database module compute the same function. -/
theorem splitOrderedAtText_agree :
    ∀ s : String, splitOrderedAtText s = Db.splitOrderedAtText s :=
  fun _ => rfl

/-- C8 counterexample: with the `DEBUG_SCRAPER` environment input absent,
`debugScraper` is `('1') !== '0' = true`, so `debugLog` does emit output —
the claim that logging is disabled by default is false on the code. -/
theorem debugLog_default_emits :
    debugLogLines (debugScraperOf none) "expand: iteration=1" ≠ [] := by decide

/-- C8 (amended): debug logging is enabled by default — with the environment
input absent the toggle is `true`, and it is `false` exactly when the variable
is set to `"0"`; the toggle gates observability only: the extracted orders do
not depend on it. -/
theorem debug_toggle_spec :
    debugScraperOf none = true ∧
    debugScraperOf (some "0") = false ∧
    (∀ message : String, debugLogLines false message = []) ∧
    (∀ (dbg : Bool) (index : ℕ) (rows : List TableRow),
      (extractRowsLogged dbg index rows).1 = extractOrdersFromTable rows) := by
  refine ⟨rfl, rfl, fun _ => rfl, fun dbg index rows => ?_⟩
  induction rows generalizing index with
  | nil => rfl
  | cons row rest ih =>
    simp only [extractRowsLogged, extractOrdersFromTable]
    split
    · exact ih _
    · split
      · simpa using ih _
      · simpa using ih _

/-- C5: the reference cases of price parsing — `$24.99` parses to 24.99 (2499
cents), `$1,234.5` to 1234.5, `no price here` is rejected, `$0` parses to 0 —
and, for every input, the result is `none` exactly when the
currency-symbol-prefixed pattern is absent or the comma-stripped capture group
does not convert to a number. -/
theorem parsePriceFromText_spec :
    parsePriceFromText "$24.99" = some 2499 ∧
    parsePriceFromText "$1,234.5" = some 123450 ∧
    parsePriceFromText "no price here" = none ∧
    parsePriceFromText "$0" = some 0 ∧
    ∀ s : String, parsePriceFromText s = none ↔
      (findPriceMatch s.data = none ∨
        ∃ g, findPriceMatch s.data = some g ∧
          jsNumberCents (stripCommas g) = none) := by
  refine ⟨by decide, by decide, by decide, by decide, fun s => ?_⟩
  unfold parsePriceFromText
  cases h : findPriceMatch s.data <;> simp [h]

/-- C1: the row extraction engine returns exactly the rows passing validation,
in the original order and nothing else — `extractOrdersFromTable` is the
`filterMap` of the per-row validator; a row maps to `none` if and only if it
has fewer than 5 cells, or its normalized column-0 text is empty, or its
restaurant name (nested-span text with fallback to the full column-1 text) is
empty, or price parsing of the normalized column-4 text fails; and every
included row is exactly the `ScrapedOrder` built from those extracted values.
-/
theorem extractOrdersFromTable_spec :
    (∀ rows : List TableRow,
      extractOrdersFromTable rows = rows.filterMap rowToOrder) ∧
    (∀ row : TableRow,
      rowToOrder row = none ↔
        (row.cells.length < 5 ∨ normalizeText (row.cells.getD 0 "") = "" ∨
          restaurantNameOfRow row = "" ∨
          parsePriceFromText (normalizeText (row.cells.getD 4 "")) = none)) ∧
    (∀ (row : TableRow) (o : ScrapedOrder), rowToOrder row = some o →
      o = buildScrapedOrder (restaurantNameOfRow row)
        ((parsePriceFromText (normalizeText (row.cells.getD 4 ""))).getD 0)
        (normalizeText (row.cells.getD 0 ""))) := by
  refine ⟨fun rows => ?_, fun row => ?_, fun row o h => ?_⟩
  · induction rows with
    | nil => rfl
    | cons row rest ih =>
      by_cases h1 : row.cells.length < 5
      · have hr : rowToOrder row = none := by
          unfold rowToOrder
          exact if_pos (Or.inl h1)
        simp only [extractOrdersFromTable, List.filterMap_cons, hr, if_pos h1]
        exact ih
      · by_cases h2 : normalizeText (row.cells.getD 0 "") = "" ∨
            restaurantNameOfRow row = "" ∨
            parsePriceFromText (normalizeText (row.cells.getD 4 "")) = none
        · have hr : rowToOrder row = none := by
            unfold rowToOrder
            exact if_pos (Or.inr h2)
          simp only [extractOrdersFromTable, List.filterMap_cons, hr,
            if_neg h1, if_pos h2]
          exact ih
        · have hr : rowToOrder row =
              some (buildScrapedOrder (restaurantNameOfRow row)
                ((parsePriceFromText (normalizeText (row.cells.getD 4 ""))).getD 0)
                (normalizeText (row.cells.getD 0 ""))) := by
            unfold rowToOrder
            exact if_neg (by tauto)
          simp only [extractOrdersFromTable, List.filterMap_cons, hr,
            if_neg h1, if_neg h2]
          exact congrArg _ ih
  · rw [rowToOrder]
    by_cases hc : row.cells.length < 5 ∨ normalizeText (row.cells.getD 0 "") = "" ∨
        restaurantNameOfRow row = "" ∨
        parsePriceFromText (normalizeText (row.cells.getD 4 "")) = none
    · rw [if_pos hc]
      exact iff_of_true rfl hc
    · rw [if_neg hc]
      exact iff_of_false (by simp) hc
  · by_cases hc : row.cells.length < 5 ∨ normalizeText (row.cells.getD 0 "") = "" ∨
        restaurantNameOfRow row = "" ∨
        parsePriceFromText (normalizeText (row.cells.getD 4 "")) = none
    · rw [rowToOrder, if_pos hc] at h
      exact absurd h (by simp)
    · rw [rowToOrder, if_neg hc] at h
      exact (Option.some_injective _ h).symm

/-- C1 witness: the valid example row is included with exactly the extracted
values. -/
theorem extractOrdersFromTable_spec_witness :
    rowToOrder
        { cells := ["Feb 22, 2026, 10:09:13 AM", "zz", "x", "y", "$24.99"],
          nameSpanText := some "Example" } =
      some (buildScrapedOrder "Example" 2499 "Feb 22, 2026, 10:09:13 AM") ∧
    buildScrapedOrder "Example" 2499 "Feb 22, 2026, 10:09:13 AM" =
      buildScrapedOrder
        (restaurantNameOfRow
          { cells := ["Feb 22, 2026, 10:09:13 AM", "zz", "x", "y", "$24.99"],
            nameSpanText := some "Example" })
        ((parsePriceFromText (normalizeText
          (["Feb 22, 2026, 10:09:13 AM", "zz", "x", "y",
            "$24.99"].getD 4 ""))).getD 0)
        (normalizeText (["Feb 22, 2026, 10:09:13 AM", "zz", "x", "y",
          "$24.99"].getD 0 "")) :=
  ⟨by decide, extractOrdersFromTable_spec.2.2 _ _ (by decide)⟩

/-- The loop bound: with `fuel` iterations left and the next iteration indexed
`iteration`, the loop never reports an iteration past `iteration + fuel - 1`.
-/
theorem expandAux_le (r : ℕ → ℕ) : ∀ fuel iteration prev stable : ℕ,
    expandAux r fuel iteration prev stable ≤ iteration + fuel - 1 := by
  intro fuel
  induction fuel with
  | zero =>
    intro iteration prev stable
    simp only [expandAux]
    omega
  | succ fuel ih =>
    intro iteration prev stable
    simp only [expandAux]
    split
    · exact le_trans (ih _ _ _) (by omega)
    · split
      · omega
      · exact le_trans (ih _ _ _) (by omega)

/-- Once the row count can no longer exceed `prev`, the loop needs exactly
three more polls: it exits at iteration `iteration + 2`. -/
theorem expandAux_stable (r : ℕ → ℕ) (fuel iteration prev : ℕ)
    (hfuel : 3 ≤ fuel) (h : ∀ i, iteration ≤ i → r i ≤ prev) :
    expandAux r fuel iteration prev 0 = iteration + 2 := by
  obtain ⟨f, rfl⟩ : ∃ f, fuel = f + 3 := ⟨fuel - 3, by omega⟩
  have h1 : ¬ prev < r iteration := by have := h iteration le_rfl; omega
  have h2 : ¬ prev < r (iteration + 1) := by have := h (iteration + 1) (by omega); omega
  have h3 : ¬ prev < r (iteration + 2) := by have := h (iteration + 2) (by omega); omega
  have e1 : expandAux r (f + 3) iteration prev 0 =
      expandAux r (f + 2) (iteration + 1) prev 1 := by
    rw [expandAux, if_neg h1, if_neg (by omega : ¬ (2:ℕ) ≤ 0)]
  have e2 : expandAux r (f + 2) (iteration + 1) prev 1 =
      expandAux r (f + 1) (iteration + 2) prev 2 := by
    rw [expandAux, if_neg h2, if_neg (by omega : ¬ (2:ℕ) ≤ 1)]
  have e3 : expandAux r (f + 1) (iteration + 2) prev 2 = iteration + 2 := by
    rw [expandAux, if_neg h3, if_pos (by omega : (2:ℕ) ≤ 2)]
  rw [e1, e2, e3]

/-- Through the growth phase the loop keeps resetting `stablePasses`, so a
source that grows strictly on iterations `1..K` and is flat afterwards makes
the loop exit at iteration `K + 3`, provided the cap is not hit first. -/
theorem expandAux_growth (r : ℕ → ℕ) (K : ℕ)
    (hK : ∀ i, 1 ≤ i → i ≤ K → r (i - 1) < r i)
    (hflat : ∀ i, K < i → r i = r K)
    (hcap : K + 3 ≤ 240) :
    ∀ g iteration, iteration + g = K + 1 → 1 ≤ iteration →
      expandAux r (241 - iteration) iteration (r (iteration - 1)) 0 = K + 3 := by
  intro g
  induction g with
  | zero =>
    intro iteration hit h1
    obtain rfl : iteration = K + 1 := by omega
    have hres := expandAux_stable r (241 - (K + 1)) (K + 1) (r K)
      (by omega)
      (fun i hi => le_of_eq (hflat i (by omega)))
    have hidx : K + 1 - 1 = K := by omega
    rw [hidx, hres]
  | succ g ih =>
    intro iteration hit h1
    have hitK : iteration ≤ K := by omega
    have hgrow : r (iteration - 1) < r iteration := hK iteration h1 hitK
    have hfuel : 241 - iteration = (240 - iteration) + 1 := by omega
    rw [hfuel, expandAux, if_pos hgrow]
    have hfuel2 : 240 - iteration = 241 - (iteration + 1) := by omega
    rw [hfuel2]
    have := ih (iteration + 1) (by omega) (by omega)
    simpa using this

/-- C4 (amended): the expansion driver performs at most 240 polling iterations
for every row source; and for a source that grows strictly on every polled
iteration up to `K` and stops growing after `K`, it terminates exactly at
iteration `K + 3` provided `K + 3` does not exceed the hard cap of 240 —
for larger `K` the cap exits the loop at iteration 240, sooner than `K + 3`.
-/
theorem expandIterations_spec :
    (∀ r : ℕ → ℕ, expandIterations r ≤ 240) ∧
    (∀ (r : ℕ → ℕ) (K : ℕ),
      (∀ i, 1 ≤ i → i ≤ K → r (i - 1) < r i) →
      (∀ i, K < i → r i = r K) →
      K + 3 ≤ 240 →
      expandIterations r = K + 3) := by
  constructor
  · intro r
    have := expandAux_le r 240 1 (r 0) 0
    simpa [expandIterations] using this
  · intro r K hK hflat hcap
    have := expandAux_growth r K hK hflat hcap K 1 (by omega) le_rfl
    simpa [expandIterations] using this

/-- C4 counterexample: the row source `min · 238` grows strictly on every
polled iteration up to 238 and never afterwards, yet the driver stops at the
hard cap, iteration 240, not at iteration `238 + 3` — so termination "exactly
at `K + 3`" fails for sources whose growth outlives the cap window. -/
theorem expandIterations_cap_collision :
    expandIterations (fun i => min i 238) = 240 ∧ 240 ≠ 238 + 3 :=
  ⟨by decide, by omega⟩

/-- C4 witness: the source `min · 2` stops growing after iteration 2 and the
driver exits exactly at iteration 5. -/
theorem expandIterations_spec_witness :
    expandIterations (fun i => min i 2) = 2 + 3 :=
  expandIterations_spec.2 (fun i => min i 2) 2
    (fun i h1 h2 => by show min (i - 1) 2 < min i 2; omega)
    (fun i h => by show min i 2 = min 2 2; omega)
    (by omega)

/-- `toOrderRow` keeps the signature. -/
theorem toOrderRow_sig (o : ScrapedOrder) :
    (toOrderRow o).sourceSignature = o.sourceSignature := rfl

/-- Inserting a batch of pairwise-fresh signatures into a store that has none
of them inserts every order, in order, and skips nothing. -/
theorem insertOrders_fold_fresh :
    ∀ (orders : List ScrapedOrder) (db : List OrderRow) (i s : ℕ),
      (orders.map ScrapedOrder.sourceSignature).Nodup →
      (∀ o ∈ orders, hasSignature db o.sourceSignature = false) →
      orders.foldl insertStep (db, i, s) =
        (db ++ orders.map toOrderRow, i + orders.length, s) := by
  intro orders
  induction orders with
  | nil => intro db i s _ _; simp
  | cons o rest ih =>
    intro db i s hnodup hfresh
    have ho : hasSignature db o.sourceSignature = false := hfresh o (by simp)
    have hstep : insertStep (db, i, s) o = (db ++ [toOrderRow o], i + 1, s) := by
      simp [insertStep, ho]
    have hnodup' : (rest.map ScrapedOrder.sourceSignature).Nodup :=
      (List.nodup_cons.mp hnodup).2
    have hosig : o.sourceSignature ∉ rest.map ScrapedOrder.sourceSignature :=
      (List.nodup_cons.mp hnodup).1
    have hfresh' : ∀ o' ∈ rest,
        hasSignature (db ++ [toOrderRow o]) o'.sourceSignature = false := by
      intro o' ho'
      have h1 : hasSignature db o'.sourceSignature = false := hfresh o' (by simp [ho'])
      have h2 : o'.sourceSignature ≠ o.sourceSignature := by
        intro he
        exact hosig (he ▸ List.mem_map_of_mem ScrapedOrder.sourceSignature ho')
      simp [hasSignature, List.any_append] at h1 ⊢
      exact ⟨h1, fun he => h2 he.symm⟩
    calc (o :: rest).foldl insertStep (db, i, s)
        = rest.foldl insertStep (db ++ [toOrderRow o], i + 1, s) := by
          rw [List.foldl_cons, hstep]
      _ = ((db ++ [toOrderRow o]) ++ rest.map toOrderRow,
            (i + 1) + rest.length, s) := ih _ _ _ hnodup' hfresh'
      _ = (db ++ (o :: rest).map toOrderRow, i + (o :: rest).length, s) := by
          simp [List.append_assoc]; omega

/-- Re-inserting a batch whose signatures are all already stored skips every
order and leaves the store unchanged. -/
theorem insertOrders_fold_present :
    ∀ (orders : List ScrapedOrder) (db : List OrderRow) (i s : ℕ),
      (∀ o ∈ orders, hasSignature db o.sourceSignature = true) →
      orders.foldl insertStep (db, i, s) = (db, i, s + orders.length) := by
  intro orders
  induction orders with
  | nil => intro db i s _; simp
  | cons o rest ih =>
    intro db i s hpres
    have ho : hasSignature db o.sourceSignature = true := hpres o (by simp)
    have hstep : insertStep (db, i, s) o = (db, i, s + 1) := by
      simp [insertStep, ho]
    rw [List.foldl_cons, hstep, ih db i (s + 1) (fun o' h => hpres o' (by simp [h]))]
    simp; omega

/-- C7: re-ingest is idempotent via signature dedup — for a batch of orders
with pairwise-distinct `sourceSignature`s none of which is stored, the first
`insertOrders` inserts all `N` and skips `0`, and a second call with the same
batch inserts `0`, skips `N`, and leaves the stored rows unchanged; the
uniqueness violations are counted as skipped, not surfaced as errors. -/
theorem insertOrders_idempotent (db : List OrderRow) (orders : List ScrapedOrder)
    (hnodup : (orders.map ScrapedOrder.sourceSignature).Nodup)
    (hfresh : ∀ o ∈ orders, hasSignature db o.sourceSignature = false) :
    insertOrders db orders =
      (db ++ orders.map toOrderRow, orders.length, 0) ∧
    insertOrders (db ++ orders.map toOrderRow) orders =
      (db ++ orders.map toOrderRow, 0, orders.length) := by
  constructor
  · have := insertOrders_fold_fresh orders db 0 0 hnodup hfresh
    simpa [insertOrders] using this
  · have hpres : ∀ o ∈ orders,
        hasSignature (db ++ orders.map toOrderRow) o.sourceSignature = true := by
      intro o ho
      have h2 : hasSignature (orders.map toOrderRow) o.sourceSignature = true := by
        simp only [hasSignature, List.any_eq_true]
        exact ⟨toOrderRow o, List.mem_map_of_mem _ ho, by simp [toOrderRow_sig]⟩
      simp only [hasSignature, List.any_append, Bool.or_eq_true]
      exact Or.inr (by simpa [hasSignature] using h2)
    have := insertOrders_fold_present orders (db ++ orders.map toOrderRow) 0 0 hpres
    simpa [insertOrders] using this

/-- C7 witness: a concrete two-order batch against an empty store. -/
theorem insertOrders_idempotent_witness :
    insertOrders [] [buildScrapedOrder "A" 100 "t", buildScrapedOrder "B" 200 "u"] =
      ([] ++ [buildScrapedOrder "A" 100 "t",
        buildScrapedOrder "B" 200 "u"].map toOrderRow,
       [buildScrapedOrder "A" 100 "t", buildScrapedOrder "B" 200 "u"].length, 0) ∧
    insertOrders ([] ++ [buildScrapedOrder "A" 100 "t",
        buildScrapedOrder "B" 200 "u"].map toOrderRow)
      [buildScrapedOrder "A" 100 "t", buildScrapedOrder "B" 200 "u"] =
      ([] ++ [buildScrapedOrder "A" 100 "t",
        buildScrapedOrder "B" 200 "u"].map toOrderRow, 0,
       [buildScrapedOrder "A" 100 "t", buildScrapedOrder "B" 200 "u"].length) :=
  insertOrders_idempotent []
    [buildScrapedOrder "A" 100 "t", buildScrapedOrder "B" 200 "u"]
    (by decide) (by decide)

/-- Every character kept by `takeWhile` satisfies the test. -/
theorem takeWhile_all (p : Char → Bool) :
    ∀ l : List Char, (l.takeWhile p).all p = true := by
  intro l
  induction l with
  | nil => rfl
  | cons c rest ih =>
    by_cases h : p c
    · simp [List.takeWhile_cons, h, ih]
    · simp [List.takeWhile_cons, h]

/-- `takeWhile` walks through a block of characters that all pass the test. -/
theorem takeWhile_append_all (p : Char → Bool) (A : List Char)
    (h : A.all p = true) (B : List Char) :
    (A ++ B).takeWhile p = A ++ B.takeWhile p := by
  induction A with
  | nil => simp
  | cons c rest ih =>
    simp only [List.all_cons, Bool.and_eq_true] at h
    simp [List.takeWhile_cons, h.1, ih h.2]

/-- `dropWhile` walks through a block of characters that all pass the test. -/
theorem dropWhile_append_all (p : Char → Bool) (A : List Char)
    (h : A.all p = true) (B : List Char) :
    (A ++ B).dropWhile p = B.dropWhile p := by
  induction A with
  | nil => simp
  | cons c rest ih =>
    simp only [List.all_cons, Bool.and_eq_true] at h
    simp [List.dropWhile_cons, h.1, ih h.2]

/-- Shape of the optional fraction tail: empty, or a dot followed by one or
two digits. -/
theorem fracPart_shape (l : List Char) :
    fracPart l = [] ∨ ∃ frac, fracPart l = '.' :: frac ∧ frac ≠ [] ∧
      frac.length ≤ 2 ∧ frac.all Char.isDigit = true := by
  match l with
  | [] => exact Or.inl rfl
  | [c] => exact Or.inl rfl
  | c :: d1 :: rest =>
    simp only [fracPart]
    split
    case isTrue h =>
      simp only [Bool.and_eq_true, decide_eq_true_eq] at h
      obtain ⟨hc, hd⟩ := h
      subst hc
      cases rest with
      | nil => exact Or.inr ⟨[d1], rfl, by simp, by simp, by simp [hd]⟩
      | cons d2 rest2 =>
        by_cases h2 : d2.isDigit
        · refine Or.inr ⟨[d1, d2], ?_, by simp, by simp, by simp [hd, h2]⟩
          simp [h2]
        · refine Or.inr ⟨[d1], ?_, by simp, by simp, by simp [hd]⟩
          simp [h2]
    case isFalse h => exact Or.inl rfl

/-- Shape of a successful capture group: a non-empty `[\d,]+` block followed
by the optional fraction tail. -/
theorem tryAfterDollar_shape (l g : List Char) (h : tryAfterDollar l = some g) :
    ∃ g1 fp, g = g1 ++ fp ∧ g1 ≠ [] ∧ g1.all isDigitComma = true ∧
      (fp = [] ∨ ∃ frac, fp = '.' :: frac ∧ frac ≠ [] ∧ frac.length ≤ 2 ∧
        frac.all Char.isDigit = true) := by
  simp only [tryAfterDollar] at h
  split at h
  · exact absurd h (by simp)
  case isFalse hne =>
    refine ⟨(l.dropWhile isSpace).takeWhile isDigitComma,
      fracPart ((l.dropWhile isSpace).dropWhile isDigitComma),
      (Option.some_injective _ h).symm, ?_, takeWhile_all _ _,
      fracPart_shape _⟩
    intro he
    rw [← List.isEmpty_iff] at he
    exact hne he

/-- Shape of every capture group `findPriceMatch` can return. -/
theorem findPriceMatch_shape : ∀ s g, findPriceMatch s = some g →
    ∃ g1 fp, g = g1 ++ fp ∧ g1 ≠ [] ∧ g1.all isDigitComma = true ∧
      (fp = [] ∨ ∃ frac, fp = '.' :: frac ∧ frac ≠ [] ∧ frac.length ≤ 2 ∧
        frac.all Char.isDigit = true) := by
  intro s
  induction s with
  | nil => intro g h; exact absurd h (by simp [findPriceMatch])
  | cons c rest ih =>
    intro g h
    rw [findPriceMatch] at h
    split at h
    · split at h
      case h_1 g' hg' =>
        exact (Option.some_injective _ h) ▸ tryAfterDollar_shape rest g' hg'
      case h_2 => exact ih g h
    · exact ih g h

/-- An all-digit string always converts (`Number` of a digit string, possibly
empty, is a number). -/
theorem jsNumberCents_digits (D : List Char) (h : D.all Char.isDigit = true) :
    jsNumberCents D = some (natOfDigits D * 100) := by
  have ht : D.takeWhile Char.isDigit = D := by
    simpa using takeWhile_append_all Char.isDigit D h []
  have hd : D.dropWhile Char.isDigit = [] := by
    simpa using dropWhile_append_all Char.isDigit D h []
  rw [jsNumberCents]
  simp only [ht, hd]

/-- C9: the `NaN` branch of `parsePriceFromText` is unreachable — whenever the
price pattern matches, the comma-stripped capture group always converts to a
number, so the function returns `none` only on pattern absence; in particular
`"$,"` (no digits at all) parses to `0` rather than `none`, because the
captured `","` strips to the empty string and `Number('') === 0`. -/
theorem parsePrice_nan_unreachable :
    (∀ (s : List Char) (g : List Char), findPriceMatch s = some g →
      (jsNumberCents (stripCommas g)).isSome = true) ∧
    parsePriceFromText "$," = some 0 := by
  constructor
  · intro s g h
    obtain ⟨g1, fp, rfl, hne, hall, hfp⟩ := findPriceMatch_shape s g h
    have hD : (stripCommas g1).all Char.isDigit = true := by
      rw [List.all_eq_true]
      intro c hc
      rw [stripCommas, List.mem_filter] at hc
      have h1 : isDigitComma c = true := (List.all_eq_true.mp hall) c hc.1
      have h2 : ¬ c = ',' := by simpa using hc.2
      rcases Bool.or_eq_true _ _ |>.mp h1 with hdig | hcom
      · exact hdig
      · exact absurd (by simpa using hcom) h2
    rw [stripCommas, List.filter_append, ← stripCommas, ← stripCommas]
    rcases hfp with rfl | ⟨frac, rfl, hfne, hflen, hfdig⟩
    · rw [show stripCommas ([] : List Char) = [] from rfl, List.append_nil,
        jsNumberCents_digits _ hD]
      rfl
    · have hfp_comma_free : stripCommas ('.' :: frac) = '.' :: frac := by
        rw [stripCommas, List.filter_eq_self]
        intro a ha
        rcases List.mem_cons.mp ha with rfl | ha2
        · simp
        · have hdig2 : a.isDigit = true := (List.all_eq_true.mp hfdig) a ha2
          have hane : a ≠ ',' := by
            intro hcon
            rw [hcon] at hdig2
            exact absurd hdig2 (by decide)
          simpa using hane
      rw [hfp_comma_free]
      have ht : (stripCommas g1 ++ '.' :: frac).takeWhile Char.isDigit =
          stripCommas g1 ++ ('.' :: frac).takeWhile Char.isDigit :=
        takeWhile_append_all Char.isDigit _ hD _
      have hd2 : (stripCommas g1 ++ '.' :: frac).dropWhile Char.isDigit =
          ('.' :: frac).dropWhile Char.isDigit :=
        dropWhile_append_all Char.isDigit _ hD _
      have hdot : ('.' : Char).isDigit = false := by decide
      rw [jsNumberCents]
      simp only [ht, hd2, List.takeWhile_cons, List.dropWhile_cons, hdot,
        Bool.false_eq_true, if_false, reduceIte]
      simp [hfdig, hfne, hflen]
  · decide

/-- C9 witness: on `"$5"` the pattern captures `"5"`, and the conversion of
the stripped group is a number. -/
theorem parsePrice_nan_unreachable_witness :
    findPriceMatch ("$5".data) = some ['5'] ∧
    (jsNumberCents (stripCommas ['5'])).isSome = true :=
  ⟨by decide, parsePrice_nan_unreachable.1 ("$5".data) ['5'] (by decide)⟩


theorem flat_cons_iff (c : Char) (rest : List Char) :
    flat (c :: rest) = true ↔
      ((isSpace c = true → c = ' ') ∧
        (isSpace c = true → notSpaceHead rest = true) ∧ flat rest = true) := by
  by_cases hsc : isSpace c
  · simp only [flat, hsc, Bool.not_true, Bool.false_or, Bool.and_eq_true,
      beq_iff_eq, forall_const]
    tauto
  · simp only [flat, Bool.not_eq_true'] at hsc ⊢
    simp [hsc]

/-- After a whitespace run was just collapsed, the output starts with a
non-space character. -/
theorem collapseAux_nsh : ∀ l : List Char,
    notSpaceHead (collapseAux true l) = true := by
  intro l
  induction l with
  | nil => rfl
  | cons c rest ih =>
    by_cases h : isSpace c
    · simpa [collapseAux, h] using ih
    · simp [collapseAux, h, notSpaceHead]

/-- The collapse output satisfies the normal-form invariant. -/
theorem collapseAux_flat : ∀ (l : List Char) (b : Bool),
    flat (collapseAux b l) = true := by
  intro l
  induction l with
  | nil => intro b; rfl
  | cons c rest ih =>
    intro b
    by_cases h : isSpace c
    · cases b with
      | true => simpa [collapseAux, h] using ih true
      | false =>
        rw [show collapseAux false (c :: rest) = ' ' :: collapseAux true rest by
          simp [collapseAux, h]]
        rw [flat_cons_iff]
        exact ⟨fun _ => rfl, fun _ => collapseAux_nsh rest, ih true⟩
    · rw [show collapseAux b (c :: rest) = c :: collapseAux false rest by
        simp [collapseAux, h]]
      rw [flat_cons_iff]
      refine ⟨fun hcon => absurd hcon h, fun hcon => absurd hcon h, ih false⟩

/-- Collapsing is the identity on text already in normal form (with a
non-space head when the collapse state says a run was just replaced). -/
theorem collapseAux_fix : ∀ (m : List Char) (b : Bool), flat m = true →
    (b = true → notSpaceHead m = true) → collapseAux b m = m := by
  intro m
  induction m with
  | nil => intro b _ _; rfl
  | cons c rest ih =>
    intro b hf hh
    obtain ⟨h1, h2, h3⟩ := (flat_cons_iff c rest).mp hf
    by_cases hsc : isSpace c
    · cases b with
      | true =>
        have := hh rfl
        simp only [notSpaceHead, Bool.not_eq_true'] at this
        exact absurd hsc (by simp [this])
      | false =>
        rw [show collapseAux false (c :: rest) = ' ' :: collapseAux true rest by
          simp [collapseAux, hsc]]
        rw [h1 hsc, ih true h3 (fun _ => h2 hsc)]
    · rw [show collapseAux b (c :: rest) = c :: collapseAux false rest by
        simp [collapseAux, hsc]]
      rw [ih false h3 (by simp)]

/-- Dropping a whitespace run from the front preserves the normal-form
invariant. -/
theorem flat_dropWhile (l : List Char) (h : flat l = true) :
    flat (l.dropWhile isSpace) = true := by
  induction l with
  | nil => exact h
  | cons c rest ih =>
    obtain ⟨_, _, h3⟩ := (flat_cons_iff c rest).mp h
    by_cases hsc : isSpace c
    · simpa [List.dropWhile_cons, hsc] using ih h3
    · simpa [List.dropWhile_cons, hsc] using h

/-- After dropping the leading whitespace run, the head is not whitespace. -/
theorem notSpaceHead_dropWhile (l : List Char) :
    notSpaceHead (l.dropWhile isSpace) = true := by
  induction l with
  | nil => rfl
  | cons c rest ih =>
    by_cases hsc : isSpace c
    · simpa [List.dropWhile_cons, hsc] using ih
    · simp [List.dropWhile_cons, hsc, notSpaceHead]

/-- `dropEndWs` only removes characters at the end: a non-empty result starts
with the head of the input. -/
theorem dropEndWs_head : ∀ (l : List Char) (d : Char) (r : List Char),
    dropEndWs l = d :: r → ∃ t, l = d :: t := by
  intro l
  induction l with
  | nil => intro d r h; exact absurd h (by simp [dropEndWs])
  | cons c rest ih =>
    intro d r h
    cases hx : dropEndWs rest with
    | nil =>
      simp only [dropEndWs, hx] at h
      by_cases hsc : isSpace c
      · rw [if_pos hsc] at h
        exact absurd h (by simp)
      · rw [if_neg hsc] at h
        exact ⟨rest, by rw [(List.cons.injEq .. |>.mp h).1]⟩
    | cons e tl =>
      simp only [dropEndWs, hx] at h
      exact ⟨rest, by rw [(List.cons.injEq .. |>.mp h).1]⟩

/-- Dropping the trailing whitespace run preserves the normal-form invariant.
-/
theorem flat_dropEndWs : ∀ l : List Char, flat l = true →
    flat (dropEndWs l) = true := by
  intro l
  induction l with
  | nil => intro h; exact h
  | cons c rest ih =>
    intro h
    obtain ⟨h1, h2, h3⟩ := (flat_cons_iff c rest).mp h
    cases hx : dropEndWs rest with
    | nil =>
      simp only [dropEndWs, hx]
      by_cases hsc : isSpace c
      · rw [if_pos hsc]; rfl
      · rw [if_neg hsc]
        exact (flat_cons_iff c []).mpr ⟨h1, fun _ => rfl, rfl⟩
    | cons e tl =>
      simp only [dropEndWs, hx]
      refine (flat_cons_iff c (e :: tl)).mpr ⟨h1, ?_, hx ▸ ih h3⟩
      intro hsc
      obtain ⟨t, ht⟩ := dropEndWs_head rest e tl hx
      have := h2 hsc
      rw [ht] at this
      simpa [notSpaceHead] using this

/-- `dropEndWs` leaves no trailing whitespace. -/
theorem lastNotSpace_dropEndWs : ∀ l : List Char,
    lastNotSpace (dropEndWs l) = true := by
  intro l
  induction l with
  | nil => rfl
  | cons c rest ih =>
    cases hx : dropEndWs rest with
    | nil =>
      simp only [dropEndWs, hx]
      by_cases hsc : isSpace c
      · rw [if_pos hsc]; rfl
      · rw [if_neg hsc]
        simp [lastNotSpace, hsc]
    | cons e tl =>
      simp only [dropEndWs, hx]
      rw [lastNotSpace, List.getLast?_cons_cons, ← lastNotSpace]
      rw [← hx] at *
      simpa [hx] using ih

/-- `dropEndWs` keeps the head free of whitespace. -/
theorem notSpaceHead_dropEndWs (l : List Char) (h : notSpaceHead l = true) :
    notSpaceHead (dropEndWs l) = true := by
  cases hx : dropEndWs l with
  | nil => rfl
  | cons d r =>
    obtain ⟨t, ht⟩ := dropEndWs_head l d r hx
    rw [ht] at h
    exact h

/-- Dropping leading whitespace is the identity when the head is not
whitespace. -/
theorem dropWhile_fix (m : List Char) (h : notSpaceHead m = true) :
    m.dropWhile isSpace = m := by
  cases m with
  | nil => rfl
  | cons c rest =>
    simp only [notSpaceHead, Bool.not_eq_true'] at h
    simp [List.dropWhile_cons, h]

/-- Dropping trailing whitespace is the identity when the last character is
not whitespace. -/
theorem dropEndWs_fix : ∀ m : List Char, lastNotSpace m = true →
    dropEndWs m = m := by
  intro m
  induction m with
  | nil => intro _; rfl
  | cons c rest ih =>
    intro h
    cases rest with
    | nil =>
      simp only [lastNotSpace, List.getLast?_singleton, Bool.not_eq_true'] at h
      simp [dropEndWs, h]
    | cons d tl =>
      rw [lastNotSpace, List.getLast?_cons_cons, ← lastNotSpace] at h
      have hfix := ih h
      rw [dropEndWs, hfix]

/-- C6: text normalization is idempotent — normalizing already-normalized
text returns it unchanged: `normalizeText (normalizeText x) = normalizeText x`
for every string `x`. -/
theorem normalizeText_idempotent :
    ∀ x : String, normalizeText (normalizeText x) = normalizeText x := by
  intro x
  have hflat : flat (collapseWs x.data) = true := collapseAux_flat x.data false
  have hflat_t : flat (trimWs (collapseWs x.data)) = true :=
    flat_dropEndWs _ (flat_dropWhile _ hflat)
  have hnsh_t : notSpaceHead (trimWs (collapseWs x.data)) = true :=
    notSpaceHead_dropEndWs _ (notSpaceHead_dropWhile _)
  have hlns_t : lastNotSpace (trimWs (collapseWs x.data)) = true :=
    lastNotSpace_dropEndWs _
  show (⟨trimWs (collapseWs (trimWs (collapseWs x.data)))⟩ : String) = _
  rw [show collapseWs (trimWs (collapseWs x.data)) = trimWs (collapseWs x.data)
    from collapseAux_fix _ false hflat_t (by simp)]
  rw [show trimWs (trimWs (collapseWs x.data)) = trimWs (collapseWs x.data) by
    rw [trimWs, dropWhile_fix _ hnsh_t, dropEndWs_fix _ hlns_t]]
  rfl

/-- `(a ++ b).data = a.data ++ b.data`. -/
theorem strData_append (a b : String) : (a ++ b).data = a.data ++ b.data := rfl

/-- Strings with equal character data are equal. -/
theorem strData_inj {a b : String} (h : a.data = b.data) : a = b := by
  cases a; cases b; exact congrArg String.mk h

/-- The accumulator of `toDecAux` is just appended to the digits. -/
theorem toDecAux_append : ∀ (fuel n : ℕ) (acc : List Char),
    toDecAux fuel n acc = toDecAux fuel n [] ++ acc := by
  intro fuel
  induction fuel with
  | zero => intro n acc; rfl
  | succ fuel ih =>
    intro n acc
    by_cases h : n < 10
    · simp [toDecAux, h]
    · rw [toDecAux, if_neg h]
      conv_rhs => rw [toDecAux, if_neg h]
      rw [ih (n / 10) (Nat.digitChar (n % 10) :: acc),
        ih (n / 10) [Nat.digitChar (n % 10)]]
      simp

/-- Reading the value back from a digit list appended with one digit. -/
theorem natOfDigits_append_one (A : List Char) (c : Char) :
    natOfDigits (A ++ [c]) = 10 * natOfDigits A + (c.toNat - 48) := by
  simp [natOfDigits, List.foldl_append]

/-- Decimal digit characters decode to their value. -/
theorem digitChar_toNat : ∀ n : ℕ, n < 10 → (Nat.digitChar n).toNat = 48 + n := by
  decide

/-- Decimal digit characters are digits. -/
theorem digitChar_isDigit : ∀ n : ℕ, n < 10 → (Nat.digitChar n).isDigit = true := by
  decide

/-- The decimal rendering decodes back to the number: `toDecAux` is a section
of `natOfDigits`. -/
theorem natOfDigits_toDecAux : ∀ fuel n : ℕ, n < 10 ^ fuel →
    natOfDigits (toDecAux fuel n []) = n := by
  intro fuel
  induction fuel with
  | zero =>
    intro n h
    obtain rfl : n = 0 := by simpa using h
    rfl
  | succ fuel ih =>
    intro n h
    by_cases h10 : n < 10
    · rw [toDecAux, if_pos h10]
      have hd := digitChar_toNat n h10
      simp [natOfDigits, hd]
    · rw [toDecAux, if_neg h10, toDecAux_append, natOfDigits_append_one]
      have hmod : n % 10 < 10 := Nat.mod_lt _ (by omega)
      have hdiv : n / 10 < 10 ^ fuel := by
        rw [Nat.div_lt_iff_lt_mul (by omega)]
        calc n < 10 ^ (fuel + 1) := h
          _ = 10 ^ fuel * 10 := by ring
      rw [ih (n / 10) hdiv, digitChar_toNat (n % 10) hmod]
      omega

/-- Every natural number is below `10 ^ (n + 1)`. -/
theorem lt_ten_pow (n : ℕ) : n < 10 ^ (n + 1) := by
  calc n < 2 ^ n := Nat.lt_two_pow n
    _ ≤ 10 ^ n := Nat.pow_le_pow_left (by omega) n
    _ < 10 ^ (n + 1) := by
        have := Nat.pow_lt_pow_succ (a := 10) (by omega) (n := n)
        omega

/-- Decimal digit lists are injective in the rendered number. -/
theorem toDecList_inj {m n : ℕ} (h : toDecList m = toDecList n) : m = n := by
  have hm := natOfDigits_toDecAux (m + 1) m (lt_ten_pow m)
  have hn := natOfDigits_toDecAux (n + 1) n (lt_ten_pow n)
  rw [show toDecAux (m + 1) m [] = toDecList m from rfl, h,
    show toDecList n = toDecAux (n + 1) n [] from rfl, hn] at hm
  exact hm.symm

/-- Decimal renderings are injective. -/
theorem toDec_inj {m n : ℕ} (h : toDec m = toDec n) : m = n :=
  toDecList_inj (congrArg String.data h)

/-- Every character of a decimal rendering is a digit. -/
theorem toDecAux_digits : ∀ fuel n : ℕ,
    (toDecAux fuel n []).all Char.isDigit = true := by
  intro fuel
  induction fuel with
  | zero => intro n; rfl
  | succ fuel ih =>
    intro n
    by_cases h : n < 10
    · rw [toDecAux, if_pos h]
      simp [digitChar_isDigit n h]
    · rw [toDecAux, if_neg h, toDecAux_append, List.all_append]
      have hmod : n % 10 < 10 := Nat.mod_lt _ (by omega)
      simp [ih (n / 10), digitChar_isDigit (n % 10) hmod]

/-- Non-digit characters do not occur in a decimal rendering. -/
theorem not_mem_toDecList (c : Char) (hc : c.isDigit = false) (n : ℕ) :
    c ∉ toDecList n := by
  intro hmem
  have := List.all_eq_true.mp (toDecAux_digits (n + 1) n) c hmem
  rw [hc] at this
  exact Bool.false_ne_true this

/-- Splitting at a separator character is unique when neither left part
contains the separator. -/
theorem append_sep_inj (sep : Char) :
    ∀ a1 : List Char, (∀ c ∈ a1, c ≠ sep) →
    ∀ a2 : List Char, (∀ c ∈ a2, c ≠ sep) →
    ∀ b1 b2 : List Char, a1 ++ sep :: b1 = a2 ++ sep :: b2 →
      a1 = a2 ∧ b1 = b2 := by
  intro a1
  induction a1 with
  | nil =>
    intro _ a2 h2 b1 b2 heq
    cases a2 with
    | nil => simpa using heq
    | cons c t =>
      simp only [List.nil_append, List.cons_append, List.cons.injEq] at heq
      exact absurd heq.1.symm (h2 c (by simp))
  | cons c t ih =>
    intro h1 a2 h2 b1 b2 heq
    cases a2 with
    | nil =>
      simp only [List.nil_append, List.cons_append, List.cons.injEq] at heq
      exact absurd heq.1 (h1 c (by simp))
    | cons c2 t2 =>
      simp only [List.cons_append, List.cons.injEq] at heq
      obtain ⟨ha, hb⟩ := ih (fun x hx => h1 x (List.mem_cons_of_mem _ hx)) t2
        (fun x hx => h2 x (List.mem_cons_of_mem _ hx)) b1 b2 heq.2
      exact ⟨by rw [heq.1, ha], hb⟩

/-- The fraction rendering distinguishes every pair of cent remainders. -/
theorem fracRender_inj : ∀ r1 : ℕ, r1 < 100 → ∀ r2 : ℕ, r2 < 100 →
    fracRender r1 = fracRender r2 → r1 = r2 := by decide

/-- The price rendering is injective: distinct cent amounts print differently.
-/
theorem renderPrice_inj : ∀ c1 c2 : ℕ, renderPrice c1 = renderPrice c2 →
    c1 = c2 := by
  intro c1 c2 h
  rw [renderPrice, renderPrice] at h
  by_cases h1 : c1 % 100 = 0 <;> by_cases h2 : c2 % 100 = 0
  · rw [if_pos h1, if_pos h2] at h
    have := toDec_inj h
    omega
  · rw [if_pos h1, if_neg h2] at h
    exfalso
    have hmem : '.' ∈ (toDec (c1 / 100)).data := by
      rw [h, strData_append, strData_append]
      simp [show ("." : String).data = ['.'] from rfl]
    exact not_mem_toDecList '.' (by decide) _ hmem
  · rw [if_neg h1, if_pos h2] at h
    exfalso
    have hmem : '.' ∈ (toDec (c2 / 100)).data := by
      rw [← h, strData_append, strData_append]
      simp [show ("." : String).data = ['.'] from rfl]
    exact not_mem_toDecList '.' (by decide) _ hmem
  · rw [if_neg h1, if_neg h2] at h
    have hdata := congrArg String.data h
    rw [strData_append, strData_append, strData_append, strData_append] at hdata
    rw [show ("." : String).data = ['.'] from rfl] at hdata
    rw [List.append_assoc, List.append_assoc, List.singleton_append,
      List.singleton_append] at hdata
    obtain ⟨hu, hf⟩ := append_sep_inj '.'
      (toDec (c1 / 100)).data (fun c hc => by
        intro hcon; subst hcon; exact not_mem_toDecList '.' (by decide) _ hc)
      (toDec (c2 / 100)).data (fun c hc => by
        intro hcon; subst hcon; exact not_mem_toDecList '.' (by decide) _ hc)
      _ _ hdata
    have hueq : c1 / 100 = c2 / 100 := toDecList_inj hu
    have hfr : fracRender (c1 % 100) = fracRender (c2 % 100) :=
      strData_inj hf
    have hreq : c1 % 100 = c2 % 100 :=
      fracRender_inj (c1 % 100) (Nat.mod_lt _ (by omega)) (c2 % 100)
        (Nat.mod_lt _ (by omega)) hfr
    omega

/-- Characters of an underscore-free string differ from `'_'`. -/
theorem underscoreFree_mem {s : String} (h : underscoreFree s = true) :
    ∀ c ∈ s.data, c ≠ '_' := by
  intro c hc
  have := List.all_eq_true.mp h c hc
  simpa using this

/-- C3 counterexample: the signature is not injective on arbitrary triples —
fields containing the delimiter, or even a single underscore at a field
boundary, produce colliding signatures from different inputs:
`("a__b", 1.00, "c")` collides with `("a", 1.00, "b__c")`, and
`("a_", 1.00, "b")` collides with `("a", 1.00, "_b")` although neither of the
latter fields contains the full `"__"` delimiter. -/
theorem sourceSignature_collision :
    ((buildScrapedOrder "a__b" 100 "c").sourceSignature =
        (buildScrapedOrder "a" 100 "b__c").sourceSignature ∧
      ("a__b", (100 : ℕ), "c") ≠ ("a", (100 : ℕ), "b__c")) ∧
    ((buildScrapedOrder "a_" 100 "b").sourceSignature =
        (buildScrapedOrder "a" 100 "_b").sourceSignature ∧
      ("a_", (100 : ℕ), "b") ≠ ("a", (100 : ℕ), "_b")) := by
  refine ⟨⟨by decide, by decide⟩, ⟨by decide, by decide⟩⟩

/-- C3 (amended): on triples whose restaurant name and timestamp text contain
no underscore character, the signature built by `buildScrapedOrder` is
injective — any two such triples that differ in at least one field produce
distinct signature strings; in particular changing `totalPrice` from 24.99 to
25.99 with identical name and timestamp changes the signature. -/
theorem sourceSignature_inj :
    ∀ (n1 : String) (p1 : ℕ) (t1 : String) (n2 : String) (p2 : ℕ) (t2 : String),
      underscoreFree n1 = true → underscoreFree t1 = true →
      underscoreFree n2 = true → underscoreFree t2 = true →
      (n1, p1, t1) ≠ (n2, p2, t2) →
      (buildScrapedOrder n1 p1 t1).sourceSignature ≠
        (buildScrapedOrder n2 p2 t2).sourceSignature := by
  intro n1 p1 t1 n2 p2 t2 hn1 ht1 hn2 ht2 hne hsig
  apply hne
  have hdata := congrArg String.data hsig
  have hshape : ∀ (n t : String) (p : ℕ),
      (buildScrapedOrder n p t).sourceSignature.data =
        n.data ++ '_' :: '_' :: (t.data ++ '_' :: '_' :: (renderPrice p).data) := by
    intro n t p
    show (n ++ "__" ++ t ++ "__" ++ renderPrice p).data = _
    rw [strData_append, strData_append, strData_append, strData_append]
    rw [show ("__" : String).data = ['_', '_'] from rfl]
    simp [List.append_assoc]
  rw [hshape, hshape] at hdata
  obtain ⟨hn, hrest⟩ := append_sep_inj '_' n1.data (underscoreFree_mem hn1)
    n2.data (underscoreFree_mem hn2) _ _ hdata
  have hrest2 := List.cons.injEq .. |>.mp hrest |>.2
  obtain ⟨ht, hrest3⟩ := append_sep_inj '_' t1.data (underscoreFree_mem ht1)
    t2.data (underscoreFree_mem ht2) _ _ hrest2
  have hp : (renderPrice p1).data = (renderPrice p2).data :=
    List.cons.injEq .. |>.mp hrest3 |>.2
  have hpeq : p1 = p2 := renderPrice_inj p1 p2 (strData_inj hp)
  rw [strData_inj hn, strData_inj ht, hpeq]

/-- C3 witness: changing only `totalPrice` from 24.99 to 25.99 with the
spec's example name and timestamp changes the signature. -/
theorem sourceSignature_inj_witness :
    underscoreFree "Example" = true ∧
    ("Example", (2499 : ℕ), "Feb 22, 2026, 10:09:13 AM") ≠
      ("Example", (2599 : ℕ), "Feb 22, 2026, 10:09:13 AM") ∧
    (buildScrapedOrder "Example" 2499 "Feb 22, 2026, 10:09:13 AM").sourceSignature ≠
      (buildScrapedOrder "Example" 2599 "Feb 22, 2026, 10:09:13 AM").sourceSignature :=
  ⟨by decide, by decide,
    sourceSignature_inj "Example" 2499 "Feb 22, 2026, 10:09:13 AM"
      "Example" 2599 "Feb 22, 2026, 10:09:13 AM"
      (by decide) (by decide) (by decide) (by decide) (by decide)⟩
